import Mathlib

/-!
Verification of the gpsd NTRIP client core (`src/gpsd/net_ntrip.c` and
`src/gpsd/net_gnss_dispatch.c`) against its natural-language specification.

The C code is shallowly embedded: NUL-terminated C strings become `List Char`,
the in-place tokenization of `ntrip_field_iterate` becomes a pure step function
returning the field and the remainder after the NUL-ed delimiter, and the
poll-driven read loop of `ntrip_sourcetable_parse` consumes an explicit
schedule of read results.  Loops use an explicit fuel argument; the fuel
passed by the wrappers is one more than the loop's decreasing measure, which
always suffices (proved in the lemma section), so every definition evaluates
by kernel reduction on concrete input.
-/

namespace GpsdNtrip

/-! ## Basic C string primitives -/

/-- Convert a string literal to the `List Char` representation used for
NUL-terminated C buffers throughout this development. -/
def cs (s : String) : List Char := s.toList

/-- ASCII lower-casing of one character, as C `tolower` on the ASCII range. -/
def lowerC (c : Char) : Char :=
  if 'A' ≤ c ∧ c ≤ 'Z' then Char.ofNat (c.toNat + 32) else c

/-- Case-insensitive character comparison (the comparison underlying C
`strcasecmp`). -/
def ciEq (a b : Char) : Bool := lowerC a = lowerC b

/-- Modelled from the spec: `str_starts_with` is declared in `strfuncs.h`,
which is not under `src/`; §4.1 of the spec describes the URI classifier built
on it as matching "a string whose lowercase prefix equals" the scheme, so the
prefix test is modelled as a case-insensitive (lowercase-folding) prefix
comparison.  None of the sourcetable theorems below depend on the case
behaviour of this test. -/
def str_starts_with : List Char → List Char → Bool
  | _, [] => true
  | [], _ :: _ => false
  | c :: s, p :: ps => ciEq c p && str_starts_with s ps

/-- Case-insensitive string equality, as C `strcasecmp(...) == 0`. -/
def strcaseEq (a b : List Char) : Bool :=
  a.length = b.length && str_starts_with a b

/-- C `strchr`: index of the first occurrence of a character, if any. -/
def strchr : List Char → Char → Option Nat
  | [], _ => none
  | x :: xs, c => if x = c then some 0 else (strchr xs c).map (· + 1)

/-- C `strrchr`: index of the last occurrence of a character, if any. -/
def strrchr : List Char → Char → Option Nat
  | [], _ => none
  | x :: xs, c =>
    match strrchr xs c with
    | some j => some (j + 1)
    | none => if x = c then some 0 else none

/-- C `strstr`: index of the first occurrence of the (case-sensitive)
pattern `p` in `s`, if any. -/
def findSub : List Char → List Char → Option Nat
  | s, p =>
    if p.isPrefixOf s then some 0
    else
      match s with
      | [] => none
      | _ :: t => (findSub t p).map (· + 1)

/-- Whether the pattern `p` occurs somewhere in `s` (C `strstr(...) != NULL`). -/
def containsSub (s p : List Char) : Bool := (findSub s p).isSome

/-- Digit-accumulation part of C `atoi`. -/
def atoiDigits : List Char → Int → Int
  | [], acc => acc
  | c :: t, acc =>
    if '0' ≤ c ∧ c ≤ '9' then atoiDigits t (acc * 10 + (c.toNat - '0'.toNat))
    else acc

/-- C `atoi` (skip leading whitespace, optional sign, leading digits). -/
def atoi (s : List Char) : Int :=
  let s1 := s.dropWhile (fun c => c = ' ' ∨ c = '\t' ∨ c = '\n' ∨ c = '\r')
  match s1 with
  | '-' :: t => - atoiDigits t 0
  | '+' :: t => atoiDigits t 0
  | t => atoiDigits t 0

/-! ## Token constants of `net_ntrip.c` -/

def NTRIP_SOURCETABLE : List Char := cs "SOURCETABLE 200 OK\r\n"
def NTRIP_ENDSOURCETABLE : List Char := cs "ENDSOURCETABLE"
def NTRIP_CAS : List Char := cs "CAS;"
def NTRIP_NET : List Char := cs "NET;"
def NTRIP_STR : List Char := cs "STR;"
def NTRIP_BR : List Char := cs "\r\n"
def NTRIP_QSC : List Char := cs "\";\""
def NTRIP_ICY : List Char := cs "ICY 200 OK"
def NTRIP_UNAUTH : List Char := cs "401 Unauthorized"

/-! ## Sourcetable field tokenizer `ntrip_field_iterate` -/

/-- Skip loop of `ntrip_field_iterate`: starting from the current position,
repeatedly jump just past the first remaining occurrence of the three-byte
quoted-delimiter sequence `";"`; returns the total offset skipped.  Fueled
version (each jump advances by at least three characters). -/
def qscSkipF : Nat → List Char → Option Nat
  | 0, _ => none
  | fuel + 1, r =>
    match findSub r NTRIP_QSC with
    | none => some 0
    | some i => (qscSkipF fuel (r.drop (i + 3))).map (fun n => i + 3 + n)

/-- Total version of the skip loop; the fuel `r.length + 1` always suffices
(lemma `qscSkipF_isSome` below), so the default is never taken. -/
def qscSkip (r : List Char) : Nat := (qscSkipF (r.length + 1) r).getD 0

/-- One step of the sourcetable field tokenizer `ntrip_field_iterate`, acting
on the remainder of the line from the current position.  As in the C code, it
first runs the `strstr` loop skipping past every occurrence of the
quoted-delimiter sequence `";"`, then NULs the first `;` found from that
point, returning the field (everything before that `;`) and the remainder
after it; when no `;` remains the whole remainder is the final field and the
remainder is `none`. -/
def ntrip_field_iterate (r : List Char) : List Char × Option (List Char) :=
  let t := qscSkip r
  match findSub (r.drop t) (cs ";") with
  | some j => (r.take (t + j), some (r.drop (t + j + 1)))
  | none => (r, none)

/-- Successive fields of one sourcetable line, as produced by repeated calls
to `ntrip_field_iterate` in `ntrip_str_parse`: after a field is returned the
next call resumes just past the NUL-ed delimiter, and stops (returns no more
fields) when that position reaches the end of the line.  Fueled version. -/
def ntripFieldsF : Nat → List Char → Option (List (List Char))
  | 0, _ => none
  | fuel + 1, r =>
    match ntrip_field_iterate r with
    | (f, none) => some [f]
    | (f, some rest) =>
      if rest = [] then some [f]
      else (ntripFieldsF fuel rest).map (fun fs => f :: fs)

/-- Total version of the field sequence of one line (`ntripFieldsF_isSome`
below shows the fuel suffices). -/
def ntripFields (r : List Char) : List (List Char) :=
  (ntripFieldsF (r.length + 1) r).getD []

/-- Transcription of the specification's description of one tokenizer step
(spec §4.3 and claim C4): scan left to right; an occurrence of the three-byte
sequence `";"` is quoted field content and is skipped whole; the first `;`
encountered outside such an occurrence is the field delimiter.  This is the
comparison definition for claim C4; the code's behaviour is
`ntrip_field_iterate` above.  Returns the absolute index of the delimiter. -/
def specFieldIdxF : Nat → List Char → Nat → Option Nat
  | 0, _, _ => none
  | fuel + 1, r, pos =>
    match r with
    | [] => none
    | c :: tail =>
      if NTRIP_QSC.isPrefixOf r then specFieldIdxF fuel (r.drop 3) (pos + 3)
      else if c = ';' then some pos
      else specFieldIdxF fuel tail (pos + 1)

/-- One step of the tokenizer as the specification's words describe it: the
field extends exactly to the next `;` that is not part of a `";"` escape
sequence; if none remains the remainder is the final field. -/
def ntrip_spec_field_step (r : List Char) : List Char × Option (List Char) :=
  match specFieldIdxF (r.length + 1) r 0 with
  | some p => (r.take p, some (r.drop (p + 1)))
  | none => (r, none)

/-! ## Data model

The stream descriptor `struct ntrip_stream_t` and its enums are declared in
`gpsd.h`, which is not under `src/`.  Modelled from the spec: §3 lists the
variants of each tagged type in order (`format` over rtcm2 … unknown,
`compr_encryp` over none/unknown, `authentication` over
none/basic/digest/unknown), and `memset(hold, 0, …)` in `ntrip_str_parse`
zero-initialises the record, which selects the first variant of each enum and
zero for the integers; the floating-point coordinates carry the spec's
"not-a-number sentinel when absent", modelled as an `Option` around the raw
field token (the conversion `safe_atof` is also not under `src/` and no claim
depends on the numeric value). -/

inductive NtripFmt
  | fmt_rtcm2 | fmt_rtcm2_0 | fmt_rtcm2_1 | fmt_rtcm2_2 | fmt_rtcm2_3
  | fmt_rtcm3_0 | fmt_rtcm3_1 | fmt_rtcm3_2 | fmt_rtcm3_3 | fmt_unknown
deriving DecidableEq, Repr

inductive NtripCmpEnc
  | cmp_enc_none | cmp_enc_unknown
deriving DecidableEq, Repr

inductive NtripAuth
  | auth_none | auth_basic | auth_digest | auth_unknown
deriving DecidableEq, Repr

/-- The stream descriptor.  Fields default to their zero-initialised values. -/
structure NtripStream where
  mountpoint : List Char := []
  format : NtripFmt := .fmt_rtcm2
  carrier : Int := 0
  latitude : Option (List Char) := none
  longitude : Option (List Char) := none
  nmea : Int := 0
  compr_encryp : NtripCmpEnc := .cmp_enc_none
  authentication : NtripAuth := .auth_none
  fee : Int := 0
  bitrate : Int := 0
  set : Bool := false
  url : List Char := []
  port : List Char := []
  credentials : List Char := []
deriving DecidableEq, Repr

/-- Format token mapping of the `<format>` field in `ntrip_str_parse`
(case-insensitive, permissive spellings, vendor token `RTCM1_` folded to
rtcm2.3, anything else unknown). -/
def parseFmt (s : List Char) : NtripFmt :=
  if strcaseEq (cs "RTCM 2") s || strcaseEq (cs "RTCM2") s then .fmt_rtcm2
  else if strcaseEq (cs "RTCM 2.0") s then .fmt_rtcm2_0
  else if strcaseEq (cs "RTCM 2.1") s then .fmt_rtcm2_1
  else if strcaseEq (cs "RTCM 2.2") s || strcaseEq (cs "RTCM22") s then .fmt_rtcm2_2
  else if strcaseEq (cs "RTCM2.3") s || strcaseEq (cs "RTCM 2.3") s then .fmt_rtcm2_3
  else if strcaseEq (cs "RTCM1_") s then .fmt_rtcm2_3
  else if strcaseEq (cs "RTCM 3") s || strcaseEq (cs "RTCM 3.0") s
       || strcaseEq (cs "RTCM3.0") s || strcaseEq (cs "RTCM3") s then .fmt_rtcm3_0
  else if strcaseEq (cs "RTCM3.1") s || strcaseEq (cs "RTCM 3.1") s then .fmt_rtcm3_1
  else if strcaseEq (cs "RTCM 3.2") s || strcaseEq (cs "RTCM32") s then .fmt_rtcm3_2
  else if strcaseEq (cs "RTCM 3.3") s then .fmt_rtcm3_3
  else .fmt_unknown

/-- Mapping of the `<compr-encryp>` field: a single space, the empty string or
a case-insensitive `none` map to no compression/encryption, anything else to
unknown. -/
def parseCmpEnc (s : List Char) : NtripCmpEnc :=
  if s = cs " " || s = [] || strcaseEq (cs "none") s then .cmp_enc_none
  else .cmp_enc_unknown

/-- Mapping of the `<authentication>` field from the `N`/`B`/`D` codes
(case-insensitive), anything else unknown. -/
def parseAuth (s : List Char) : NtripAuth :=
  if strcaseEq (cs "N") s then .auth_none
  else if strcaseEq (cs "B") s then .auth_basic
  else if strcaseEq (cs "D") s then .auth_digest
  else .auth_unknown

/-- Decode one `STR;` record body (the line with the `STR;` prefix already
stripped) into a fresh zero-initialised stream descriptor, as
`ntrip_str_parse`: fields are read in fixed positional order with the
tokenizer, each present field overwriting the corresponding default. -/
def ntrip_str_parse (s : List Char) : NtripStream :=
  let fs := ntripFields s
  { mountpoint := (fs.get? 0).getD []
    format := match fs.get? 2 with | some v => parseFmt v | none => .fmt_rtcm2
    carrier := match fs.get? 4 with | some v => atoi v | none => 0
    latitude := fs.get? 8
    longitude := fs.get? 9
    nmea := match fs.get? 10 with | some v => atoi v | none => 0
    compr_encryp := match fs.get? 13 with | some v => parseCmpEnc v | none => .cmp_enc_none
    authentication := match fs.get? 14 with | some v => parseAuth v | none => .auth_none
    fee := match fs.get? 15 with | some v => atoi v | none => 0
    bitrate := match fs.get? 16 with | some v => atoi v | none => 0 }

/-! ## Sourcetable driver `ntrip_sourcetable_parse` -/

/-- Commit of a matching record: the field-by-field copy into the device's
descriptor ("no memcpy, so we can keep the other infos"), plus `set = true`.
The mountpoint, url, port and credentials of the device are untouched. -/
def stream_commit (s hold : NtripStream) : NtripStream :=
  { s with
    format := hold.format
    carrier := hold.carrier
    latitude := hold.latitude
    longitude := hold.longitude
    nmea := hold.nmea
    compr_encryp := hold.compr_encryp
    authentication := hold.authentication
    fee := hold.fee
    bitrate := hold.bitrate
    set := true }

/-- Processing of one complete sourcetable line inside the line-walk of
`ntrip_sourcetable_parse`: an `STR;` line is decoded and, when its mountpoint
equals the requested one, passes the three capability gates (format known,
no compression/encryption, authentication none or basic) and is committed;
a gate failure is the `-1` early return, modelled as `none`.  `CAS;`, `NET;`
and any other lines are only logged and leave the state unchanged. -/
def ntrip_line_process (s : NtripStream) (m : Bool) (line : List Char) :
    Option (NtripStream × Bool) :=
  if str_starts_with line NTRIP_STR then
    let hold := ntrip_str_parse (line.drop NTRIP_STR.length)
    if s.mountpoint = hold.mountpoint then
      if hold.format = .fmt_unknown then none
      else if hold.compr_encryp ≠ .cmp_enc_none then none
      else if hold.authentication ≠ .auth_none ∧ hold.authentication ≠ .auth_basic then none
      else some (stream_commit s hold, true)
    else some (s, m)
  else some (s, m)

/-- Outcome of the inner line-walk over the buffered bytes: either an early
return with a code (`ENDSOURCETABLE` reached, or a capability-gate failure),
or the walk stopped at a partial line with a leftover to carry over. -/
inductive WalkOut where
  | ret (code : Int) (s : NtripStream) (m : Bool)
  | more (leftover : List Char) (s : NtripStream) (m : Bool)
deriving DecidableEq, Repr

/-- The `while (len > 0)` loop of `ntrip_sourcetable_parse`: terminate at a
line starting with `ENDSOURCETABLE` (code 1 if a match was committed, else
-1), otherwise split off the next complete `\r\n`-terminated line and process
it, stopping with the leftover when no full line remains.  Fueled version. -/
def walkF : Nat → NtripStream → Bool → List Char → Option WalkOut
  | 0, _, _, _ => none
  | fuel + 1, s, m, acc =>
    if acc = [] then some (.more acc s m)
    else if str_starts_with acc NTRIP_ENDSOURCETABLE then
      some (.ret (if m then 1 else -1) s m)
    else
      match findSub acc NTRIP_BR with
      | none => some (.more acc s m)
      | some i =>
        match ntrip_line_process s m (acc.take i) with
        | none => some (.ret (-1) s m)
        | some (s', m') => walkF fuel s' m' (acc.drop (i + 2))

/-- Total version of the line-walk (`walkF_isSome` below shows the fuel
`acc.length + 1` always suffices, so the default is never taken). -/
def walk (s : NtripStream) (m : Bool) (acc : List Char) : WalkOut :=
  (walkF (acc.length + 1) s m acc).getD (.more acc s m)

/-- Result of one `read` call on the probe socket, as seen by the driver:
some bytes (empty meaning remote close, `read` returning 0), or a failure
with `errno` of `EINTR`, `EAGAIN`, or anything else. -/
inductive ReadRes where
  | chunk (s : List Char)
  | eintr
  | eagain
  | rerr
deriving DecidableEq, Repr

/-- Per-device NTRIP session state touched by the sourcetable driver. -/
structure NtripState where
  sourcetable_parse : Bool := false
  stream : NtripStream := {}
deriving DecidableEq, Repr

/-- Capacity of the driver's local line buffer, C `char buf[BUFSIZ]`. -/
def BUFSIZ : Nat := 8192

/-- The `for (;;)` read loop of `ntrip_sourcetable_parse`, consuming an
explicit schedule of read results.  `loc` is the local `sourcetable` flag
(initialised `false` and refreshed from the device only after a successful
read), `m` the local `match` flag, `acc` the bytes accumulated in the local
buffer.  Returns `none` when the schedule is exhausted with the loop still
running, otherwise the C return code and the final device state. -/
def parseLoop : NtripState → Bool → Bool → List Char → List ReadRes →
    Option (Int × NtripState)
  | _, _, _, _, [] => none
  | st, loc, m, acc, .eintr :: rs => parseLoop st loc m acc rs
  | st, loc, m, _, .eagain :: _ =>
    if loc && !m then some (0, st)
    else if m then some (1, st)
    else some (-1, st)
  | st, _, m, _, .rerr :: _ => if m then some (1, st) else some (-1, st)
  | st, _, m, acc, .chunk c :: rs =>
    if c = [] then some (-1, st)
    else
      let acc1 := acc ++ c.take (BUFSIZ - 1 - acc.length)
      let stAcc : Option (NtripState × List Char) :=
        if st.sourcetable_parse then some (st, acc1)
        else if str_starts_with acc1 NTRIP_SOURCETABLE then
          some ({ st with sourcetable_parse := true },
                acc1.drop NTRIP_SOURCETABLE.length)
        else none
      match stAcc with
      | none => some (-1, st)
      | some (st2, acc2) =>
        match walk st2.stream m acc2 with
        | .ret code s' _ => some (code, { st2 with stream := s' })
        | .more left s' m' =>
          if left.length = BUFSIZ - 1 then some (-1, { st2 with stream := s' })
          else parseLoop { st2 with stream := s' } true m' left rs

/-- The sourcetable driver `ntrip_sourcetable_parse`: a fresh invocation
starts with both local flags false and an empty local buffer. -/
def ntrip_sourcetable_parse (st : NtripState) (sched : List ReadRes) :
    Option (Int × NtripState) :=
  parseLoop st false false [] sched

/-! ## Reference view of the line-walk for the quantified theorems -/

/-- Concatenation of sourcetable lines with their `\r\n` terminators. -/
def joinBR : List (List Char) → List Char
  | [] => []
  | l :: ls => l ++ NTRIP_BR ++ joinBR ls

/-- Outcome of processing a list of complete lines in order. -/
inductive LinesOut where
  | fail (s : NtripStream) (m : Bool)
  | done (s : NtripStream) (m : Bool)
deriving DecidableEq, Repr

/-- Process complete lines in order with `ntrip_line_process`, stopping early
at a capability-gate failure. -/
def runLines (s : NtripStream) (m : Bool) : List (List Char) → LinesOut
  | [] => .done s m
  | l :: ls =>
    match ntrip_line_process s m l with
    | none => .fail s m
    | some (s', m') => runLines s' m' ls

/-- Whether a line is an `STR;` record whose mountpoint equals the requested
one `req` (the device descriptor's mountpoint, which commits never change). -/
def lineMatches (req l : List Char) : Bool :=
  str_starts_with l NTRIP_STR &&
    decide (req = (ntrip_str_parse (l.drop NTRIP_STR.length)).mountpoint)

/-- The three capability gates of the driver on a decoded record. -/
def gatesOK (h : NtripStream) : Bool :=
  !decide (h.format = .fmt_unknown) && decide (h.compr_encryp = .cmp_enc_none) &&
    (decide (h.authentication = .auth_none) || decide (h.authentication = .auth_basic))

/-- The spec §3 descriptor invariant: a committed descriptor has a known
format, no compression/encryption, and authentication none or basic. -/
def streamInv (s : NtripStream) : Prop :=
  s.set = true →
    s.format ≠ .fmt_unknown ∧ s.compr_encryp = .cmp_enc_none ∧
      (s.authentication = .auth_none ∨ s.authentication = .auth_basic)

/-! ## Response classifier `ntrip_stream_get_parse` -/

/-- Result of one `read` call on the GET socket. -/
inductive GetRead where
  | eintr
  | rfail
  | bytes (s : List Char)
deriving DecidableEq, Repr

/-- Outcome of the GET response classifier: the returned value (`dsock` or
-1), whether the socket was closed, and whether it was set non-blocking. -/
structure GetParseOut where
  ret : Int
  closedSock : Bool
  nonblock : Bool
deriving DecidableEq, Repr

/-- The GET response classifier `ntrip_stream_get_parse`: retry the read on
`EINTR`; any other read failure closes the socket and fails; on the first
successful read classify the whole buffer by substring search: `401
Unauthorized` fails, then `SOURCETABLE 200 OK\r\n` fails, then a missing
`ICY 200 OK` fails; otherwise set the socket non-blocking and return it. -/
def ntrip_stream_get_parse (dsock : Int) : List GetRead → Option GetParseOut
  | [] => none
  | .eintr :: rs => ntrip_stream_get_parse dsock rs
  | .rfail :: _ => some ⟨-1, true, false⟩
  | .bytes buf :: _ =>
    if containsSub buf NTRIP_UNAUTH then some ⟨-1, true, false⟩
    else if containsSub buf NTRIP_SOURCETABLE then some ⟨-1, true, false⟩
    else if !containsSub buf NTRIP_ICY then some ⟨-1, true, false⟩
    else some ⟨dsock, false, true⟩

/-! ## URI parsing part of `ntrip_open` (the `ntrip_conn_init` case) -/

/-- The four components extracted from the post-scheme URI remainder.  A
`port` of `none` is the unset case, defaulted by the caller through the
external service resolver (`rtcm-sc104/tcp`, falling back to the build's
default port). -/
structure NtripUri where
  credentials : Option (List Char)
  url : List Char
  port : Option (List Char)
  mountpoint : List Char
deriving DecidableEq, Repr

/-- Credential/caster split of `ntrip_open`: take the rightmost `@`
(`strrchr`); split there only when the first `:` (`strchr`) lies strictly to
its left; otherwise the whole input is the caster and there are no
credentials. -/
def cred_split (dup : List Char) : Option (List Char) × List Char :=
  match strrchr dup '@' with
  | some a =>
    match strchr dup ':' with
    | some c => if c < a then (some (dup.take a), dup.drop (a + 1)) else (none, dup)
    | none => (none, dup)
  | none => (none, dup)

/-- URI parsing of `ntrip_open`'s `ntrip_conn_init` case: `strlcpy(dup, orig,
255)` truncates the input to at most 254 characters, then the credential
split, then the first `/` separates the mountpoint (its absence is the
"can't extract Ntrip stream" error, `none` here), then the first `:` of the
pre-`/` portion separates the port. -/
def ntrip_open_uri (orig : List Char) : Option NtripUri :=
  let dup := orig.take 254
  let ac := cred_split dup
  match strchr ac.2 '/' with
  | none => none
  | some si =>
    let mount := ac.2.drop (si + 1)
    let pre := ac.2.take si
    match strchr pre ':' with
    | some k => some ⟨ac.1, pre.take k, some (pre.drop (k + 1)), mount⟩
    | none => some ⟨ac.1, pre, none, mount⟩

/-! ## Dispatcher `net_gnss_dispatch.c` -/

def NETGNSS_NTRIP : List Char := cs "ntrip://"
def NETGNSS_DGPSIP : List Char := cs "dgpsip://"

/-- `netgnss_uri_check`: is the string a valid URI for a GNSS/DGPS service? -/
def netgnss_uri_check (name : List Char) : Bool :=
  str_starts_with name NETGNSS_NTRIP || str_starts_with name NETGNSS_DGPSIP

/-- Routing decision of `netgnss_uri_open`. -/
inductive NetgnssRoute where
  | toNtrip (rest : List Char)
  | toDgpsip (rest : List Char)
  | unknownProtocol
deriving DecidableEq, Repr

/-- `netgnss_uri_open`: an `ntrip://`-prefixed service (when NTRIP support is
compiled in) goes to the NTRIP opener with the scheme stripped, a
`dgpsip://`-prefixed one to the DGPS/IP opener with the scheme stripped; any
other string goes whole to the DGPS/IP opener unless strict mode
(`REQUIRE_DGNSS_PROTO`) is configured, in which case the call fails. -/
def netgnss_uri_open (ntripEnable strictDgnss : Bool) (svc : List Char) :
    NetgnssRoute :=
  if ntripEnable && str_starts_with svc NETGNSS_NTRIP then
    .toNtrip (svc.drop NETGNSS_NTRIP.length)
  else if str_starts_with svc NETGNSS_DGPSIP then
    .toDgpsip (svc.drop NETGNSS_DGPSIP.length)
  else if strictDgnss then .unknownProtocol
  else .toDgpsip svc

/-! ## Periodic position reporter `ntrip_report` -/

/-- One call of `ntrip_report`: the process-wide counter is incremented, and
one NMEA position line is written when the selected stream's `nmea` flag is
non-zero, more than ten fixes have accumulated, the incremented counter is a
multiple of five, and the caster's socket is open.  Returns the new counter
and whether a line was written. -/
def ntrip_report (count nmea fixcnt fd : Int) : Int × Bool :=
  let c := count + 1
  (c, if nmea ≠ 0 ∧ fixcnt > 10 ∧ c % 5 = 0 then
        (if fd > -1 then true else false)
      else false)

/-- Trace of successive `ntrip_report` calls threading the static counter,
with the fix count at each call given by the list. -/
def ntrip_report_trace (count nmea fd : Int) : List Int → List Bool
  | [] => []
  | f :: fs =>
    let r := ntrip_report count nmea f fd
    r.2 :: ntrip_report_trace r.1 nmea fd fs

/-! ## Lemmas: totality of the fueled loops -/

/-- Occurrence returned by `findSub` lies inside the string: the index plus the
pattern length is bounded by the string length, and the pattern is a prefix of
the remainder at that index. -/
theorem findSub_bound : ∀ {s p : List Char} {i : Nat}, findSub s p = some i →
    i + p.length ≤ s.length ∧ p.isPrefixOf (s.drop i) := by
  intro s
  induction s with
  | nil =>
    intro p i h
    unfold findSub at h
    by_cases hp : p.isPrefixOf ([] : List Char)
    · simp only [hp, if_true, Option.some.injEq] at h
      subst h
      cases p with
      | nil => simp [hp]
      | cons a t => simp [List.isPrefixOf] at hp
    · simp [hp] at h
  | cons x t ih =>
    intro p i h
    unfold findSub at h
    by_cases hp : p.isPrefixOf (x :: t)
    · simp only [hp, if_true, Option.some.injEq] at h
      subst h
      refine ⟨?_, by simpa using hp⟩
      have := (List.isPrefixOf_iff_prefix.mp hp).length_le
      simpa using this
    · simp only [hp, if_false] at h
      cases hft : findSub t p with
      | none => rw [hft] at h; simp at h
      | some j =>
      rw [hft] at h
      simp at h
      obtain ⟨h1, h2⟩ := ih hft
      subst h
      exact ⟨by simpa [Nat.add_right_comm] using Nat.add_le_add_right h1 1,
        by simpa using h2⟩

theorem qscSkipF_isSome : ∀ (fuel : Nat) (r : List Char), r.length < fuel →
    (qscSkipF fuel r).isSome := by
  intro fuel
  induction fuel with
  | zero => intro r h; omega
  | succ fuel ih =>
    intro r h
    unfold qscSkipF
    cases hf : findSub r NTRIP_QSC with
    | none => simp
    | some i =>
      have hb := (findSub_bound hf).1
      have hq : NTRIP_QSC.length = 3 := rfl
      rw [hq] at hb
      have : (r.drop (i + 3)).length < fuel := by
        rw [List.length_drop]; omega
      have := ih _ this
      simpa using this

theorem fieldIterate_rest_lt : ∀ {r f rest : List Char},
    ntrip_field_iterate r = (f, some rest) → rest.length < r.length := by
  intro r f rest h
  unfold ntrip_field_iterate at h
  cases hf : findSub (r.drop (qscSkip r)) (cs ";") with
  | none => simp [hf] at h
  | some j =>
    simp only [hf] at h
    obtain ⟨-, h2⟩ := Prod.mk.injEq .. ▸ h
    have hb := (findSub_bound hf).1
    have hone : (cs ";").length = 1 := rfl
    rw [hone, List.length_drop] at hb
    have h2' : rest = r.drop (qscSkip r + j + 1) := by
      simpa using h2.symm
    subst h2'
    rw [List.length_drop]
    omega

theorem ntripFieldsF_isSome : ∀ (fuel : Nat) (r : List Char), r.length < fuel →
    (ntripFieldsF fuel r).isSome := by
  intro fuel
  induction fuel with
  | zero => intro r h; omega
  | succ fuel ih =>
    intro r h
    unfold ntripFieldsF
    cases hf : ntrip_field_iterate r with
    | mk f orest =>
      cases orest with
      | none => simp
      | some rest =>
        by_cases hr : rest = []
        · simp [hr]
        · have hlt := fieldIterate_rest_lt hf
          have := ih rest (by omega)
          simp only [hr, if_false]
          simpa using this

theorem walkF_isSome : ∀ (fuel : Nat) (s : NtripStream) (m : Bool)
    (acc : List Char), acc.length < fuel → (walkF fuel s m acc).isSome := by
  intro fuel
  induction fuel with
  | zero => intro s m acc h; omega
  | succ fuel ih =>
    intro s m acc h
    unfold walkF
    by_cases hacc : acc = []
    · simp [hacc]
    · simp only [hacc, if_false]
      by_cases hend : str_starts_with acc NTRIP_ENDSOURCETABLE = true
      · simp [hend]
      · simp only [hend, if_false]
        cases hf : findSub acc NTRIP_BR with
        | none => simp
        | some i =>
          simp only [hf]
          cases hp : ntrip_line_process s m (acc.take i) with
          | none => simp [hp]
          | some sm =>
            have hlen : 0 < acc.length := List.length_pos.mpr hacc
            have hrec : (acc.drop (i + 2)).length < fuel := by
              rw [List.length_drop]; omega
            cases sm with
            | mk s' m' => simpa [hp] using ih s' m' _ hrec

/-- Unfolding rule for the total wrapper `walk` from the fueled loop. -/
theorem walk_eq_of_walkF {s : NtripStream} {m : Bool} {acc : List Char}
    {out : WalkOut} (h : walkF (acc.length + 1) s m acc = some out) :
    walk s m acc = out := by
  simp [walk, h]

/-! ## Lemmas: string primitives -/

theorem ciEq_refl (c : Char) : ciEq c c = true := by simp [ciEq]

/-- A string case-insensitively starts with any of its own prefixes. -/
theorem starts_append_self : ∀ (p r : List Char),
    str_starts_with (p ++ r) p = true := by
  intro p
  induction p with
  | nil => intro r; cases r <;> rfl
  | cons q ps ih =>
    intro r
    simp [str_starts_with, ciEq_refl, ih r]

/-- First occurrence of the line break in `line ++ "\r\n" ++ rest` is exactly
at the end of a CR-free line. -/
theorem findSub_br_append : ∀ (l rest : List Char), '\r' ∉ l →
    findSub (l ++ NTRIP_BR ++ rest) NTRIP_BR = some l.length := by
  intro l
  induction l with
  | nil =>
    intro rest h
    unfold findSub
    have : NTRIP_BR.isPrefixOf (NTRIP_BR ++ rest) = true :=
      List.isPrefixOf_iff_prefix.mpr (List.prefix_append _ _)
    simp [this]
  | cons x l' ih =>
    intro rest h
    have hx : x ≠ '\r' := fun hc => h (by simp [hc])
    have hpre : NTRIP_BR.isPrefixOf ((x :: l') ++ NTRIP_BR ++ rest) = false := by
      have hbr : NTRIP_BR = '\r' :: '\n' :: [] := rfl
      rw [hbr]
      simp only [List.cons_append, List.isPrefixOf]
      have : ('\r' == x) = false := by
        simp [beq_eq_false_iff_ne]
        exact fun hc => hx hc.symm
      simp [this]
    unfold findSub
    rw [hpre]
    simp only [if_false, List.cons_append]
    have := ih rest (fun hc => h (by simp [hc]))
    simp only [List.append_assoc] at this ⊢
    rw [this]
    simp [List.length_cons]

/-- A case-insensitive prefix test that would have to look past the end of a
CR-free line into the `\r` terminator fails there, provided the pattern
itself contains no `\r`; hence the test only depends on the line. -/
theorem starts_append_cr : ∀ (p l rest : List Char),
    (∀ q ∈ p, ciEq '\r' q = false) → '\r' ∉ l →
    str_starts_with (l ++ '\r' :: rest) p = str_starts_with l p := by
  intro p l
  induction l generalizing p with
  | nil =>
    intro rest hp _
    cases p with
    | nil => rfl
    | cons q ps =>
      have hq : ciEq '\r' q = false := hp q (by simp)
      simp [str_starts_with, hq]
  | cons x l' ih =>
    intro rest hp hl
    cases p with
    | nil => rfl
    | cons q ps =>
      have hps : ∀ q' ∈ ps, ciEq '\r' q' = false := fun q' hq' => hp q' (by simp [hq'])
      have hl' : '\r' ∉ l' := fun hc => hl (by simp [hc])
      simp [str_starts_with, ih ps rest hps hl']

theorem cr_notin_ENDSOURCETABLE : ∀ q ∈ NTRIP_ENDSOURCETABLE, ciEq '\r' q = false := by
  decide

/-! ## Lemmas: the line-walk on whole lines -/

/-- One complete CR-free line followed by `\r\n`: the walk splits it off and
processes it, then continues on the rest. -/
theorem walkF_cons_line (fuel : Nat) (s : NtripStream) (m : Bool)
    (l rest : List Char) (hcr : '\r' ∉ l)
    (hend : str_starts_with l NTRIP_ENDSOURCETABLE = false) :
    walkF (fuel + 1) s m (l ++ NTRIP_BR ++ rest) =
      match ntrip_line_process s m l with
      | none => some (.ret (-1) s m)
      | some (s', m') => walkF fuel s' m' rest := by
  have hacc : l ++ NTRIP_BR ++ rest ≠ [] := by
    simp [NTRIP_BR, cs]
  have hshape : l ++ NTRIP_BR ++ rest = l ++ '\r' :: ('\n' :: rest) := by
    simp [NTRIP_BR, cs]
  have hendacc : str_starts_with (l ++ NTRIP_BR ++ rest) NTRIP_ENDSOURCETABLE = false := by
    rw [hshape, starts_append_cr _ _ _ cr_notin_ENDSOURCETABLE hcr, hend]
  have hfs := findSub_br_append l rest hcr
  have htake : (l ++ NTRIP_BR ++ rest).take l.length = l := by
    rw [List.append_assoc]
    exact List.take_left l _
  have hdrop : (l ++ NTRIP_BR ++ rest).drop (l.length + 2) = rest := by
    have hlen : (l ++ NTRIP_BR).length = l.length + 2 := by
      simp [NTRIP_BR, cs]
    exact List.drop_left' hlen
  cases hp : ntrip_line_process s m l with
  | none =>
    unfold walkF
    rw [if_neg hacc, hendacc]
    simp only [Bool.false_eq_true, if_false, hfs, htake, hdrop, hp]
  | some sm =>
    obtain ⟨s', m'⟩ := sm
    unfold walkF
    rw [if_neg hacc, hendacc]
    simp only [Bool.false_eq_true, if_false, hfs, htake, hdrop, hp]
    cases fuel with
    | zero => rfl
    | succ n => rfl

/-- The walk over a buffer consisting of well-formed complete lines followed
by the `ENDSOURCETABLE` terminator agrees with processing the lines in
order. -/
theorem walkF_joinBR : ∀ (lines : List (List Char)) (fuel : Nat)
    (s : NtripStream) (m : Bool),
    (∀ l ∈ lines, '\r' ∉ l ∧ str_starts_with l NTRIP_ENDSOURCETABLE = false) →
    (joinBR lines ++ NTRIP_ENDSOURCETABLE).length < fuel →
    walkF fuel s m (joinBR lines ++ NTRIP_ENDSOURCETABLE) =
      match runLines s m lines with
      | .fail s' m' => some (.ret (-1) s' m')
      | .done s' m' => some (.ret (if m' then 1 else -1) s' m') := by
  intro lines
  induction lines with
  | nil =>
    intro fuel s m _ hfuel
    cases fuel with
    | zero => exact absurd hfuel (Nat.not_lt_zero _)
    | succ fuel =>
      have hne : joinBR [] ++ NTRIP_ENDSOURCETABLE ≠ [] := by decide
      have hself : str_starts_with (joinBR [] ++ NTRIP_ENDSOURCETABLE)
          NTRIP_ENDSOURCETABLE = true := by decide
      unfold walkF
      rw [if_neg hne, hself]
      simp [runLines]
  | cons l ls ih =>
    intro fuel s m hwf hfuel
    obtain ⟨hcr, hend⟩ := hwf l (by simp)
    have hwf' : ∀ l' ∈ ls, '\r' ∉ l' ∧
        str_starts_with l' NTRIP_ENDSOURCETABLE = false :=
      fun l' hl' => hwf l' (by simp [hl'])
    cases fuel with
    | zero => exact absurd hfuel (Nat.not_lt_zero _)
    | succ fuel =>
      have hjoin : joinBR (l :: ls) ++ NTRIP_ENDSOURCETABLE =
          l ++ NTRIP_BR ++ (joinBR ls ++ NTRIP_ENDSOURCETABLE) := by
        simp [joinBR, List.append_assoc]
      rw [hjoin, walkF_cons_line fuel s m l _ hcr hend]
      have hflen : (joinBR ls ++ NTRIP_ENDSOURCETABLE).length < fuel := by
        rw [hjoin] at hfuel
        simp only [List.length_append] at hfuel ⊢
        have hbr2 : NTRIP_BR.length = 2 := rfl
        omega
      cases hp : ntrip_line_process s m l with
      | none => simp [runLines, hp]
      | some sm =>
        obtain ⟨s', m'⟩ := sm
        simp only [runLines, hp]
        exact ih fuel s' m' hwf' hflen

/-! ## Lemmas: line processing and the order of commits -/

/-- A non-matching line (not an `STR;` record, or a different mountpoint)
leaves the state unchanged. -/
theorem line_process_no_match {s : NtripStream} {m : Bool} {l : List Char}
    (h : lineMatches s.mountpoint l = false) :
    ntrip_line_process s m l = some (s, m) := by
  unfold lineMatches at h
  unfold ntrip_line_process
  by_cases hstr : str_starts_with l NTRIP_STR = true
  · rw [hstr] at h
    simp only [Bool.true_and, decide_eq_false_iff_not] at h
    simp [hstr, h]
  · have hstr' : str_starts_with l NTRIP_STR = false := by
      simpa using hstr
    simp [hstr']

/-- A matching line whose record passes all three capability gates is
committed. -/
theorem line_process_match_ok {s : NtripStream} {m : Bool} {l : List Char}
    (hm : lineMatches s.mountpoint l = true)
    (hg : gatesOK (ntrip_str_parse (l.drop NTRIP_STR.length)) = true) :
    ntrip_line_process s m l =
      some (stream_commit s (ntrip_str_parse (l.drop NTRIP_STR.length)), true) := by
  unfold lineMatches at hm
  rw [Bool.and_eq_true] at hm
  obtain ⟨hstr, hmp⟩ := hm
  rw [decide_eq_true_iff] at hmp
  unfold gatesOK at hg
  rw [Bool.and_eq_true, Bool.and_eq_true] at hg
  obtain ⟨⟨hfmt, hcmp⟩, hauth⟩ := hg
  rw [Bool.not_eq_eq_eq_not, Bool.not_true, decide_eq_false_iff_not] at hfmt
  rw [decide_eq_true_iff] at hcmp
  rw [Bool.or_eq_true, decide_eq_true_iff, decide_eq_true_iff] at hauth
  unfold ntrip_line_process
  have hauth' : ¬((ntrip_str_parse (l.drop NTRIP_STR.length)).authentication ≠ .auth_none ∧
      (ntrip_str_parse (l.drop NTRIP_STR.length)).authentication ≠ .auth_basic) := by
    rcases hauth with h | h <;> simp [h]
  simp [hstr, hmp, hfmt, hcmp, hauth']

/-- A matching line whose record fails a capability gate is the `-1` early
return. -/
theorem line_process_match_bad {s : NtripStream} {m : Bool} {l : List Char}
    (hm : lineMatches s.mountpoint l = true)
    (hg : gatesOK (ntrip_str_parse (l.drop NTRIP_STR.length)) = false) :
    ntrip_line_process s m l = none := by
  unfold lineMatches at hm
  rw [Bool.and_eq_true] at hm
  obtain ⟨hstr, hmp⟩ := hm
  rw [decide_eq_true_iff] at hmp
  unfold gatesOK at hg
  unfold ntrip_line_process
  set hold := ntrip_str_parse (l.drop NTRIP_STR.length) with hhold
  by_cases h1 : hold.format = .fmt_unknown
  · simp [hstr, hmp, h1]
  · by_cases h2 : hold.compr_encryp = .cmp_enc_none
    · have h3 : hold.authentication ≠ .auth_none ∧ hold.authentication ≠ .auth_basic := by
        rw [Bool.and_eq_false_iff, Bool.and_eq_false_iff] at hg
        rcases hg with (hf | hc) | ha
        · rw [Bool.not_eq_false', decide_eq_true_iff] at hf
          exact absurd hf h1
        · rw [decide_eq_false_iff_not] at hc
          exact absurd h2 hc
        · rw [Bool.or_eq_false_iff, decide_eq_false_iff_not,
            decide_eq_false_iff_not] at ha
          exact ha
      simp [hstr, hmp, h1, h2, h3]
    · simp [hstr, hmp, h1, h2]

/-- Committing twice keeps only the last record's fields. -/
theorem stream_commit_commit (s h1 h2 : NtripStream) :
    stream_commit (stream_commit s h1) h2 = stream_commit s h2 := rfl

theorem stream_commit_mountpoint (s h : NtripStream) :
    (stream_commit s h).mountpoint = s.mountpoint := rfl

/-- When every matching record passes the capability gates, processing the
lines in order never fails, and the resulting descriptor carries the fields of
the last matching record (each matching record overwrites the previous
commit). -/
theorem runLines_last_match : ∀ (lines : List (List Char)) (s : NtripStream)
    (m : Bool),
    (∀ l ∈ lines, lineMatches s.mountpoint l = true →
      gatesOK (ntrip_str_parse (l.drop NTRIP_STR.length)) = true) →
    runLines s m lines =
      match (lines.filter (lineMatches s.mountpoint)).getLast? with
      | none => .done s m
      | some l => .done (stream_commit s (ntrip_str_parse (l.drop NTRIP_STR.length))) true := by
  intro lines
  induction lines with
  | nil => intro s m _; simp [runLines]
  | cons l ls ih =>
    intro s m hg
    by_cases hm : lineMatches s.mountpoint l = true
    · have hgl := hg l (by simp) hm
      simp only [runLines, line_process_match_ok hm hgl]
      have hmp : (stream_commit s (ntrip_str_parse (l.drop NTRIP_STR.length))).mountpoint
          = s.mountpoint := rfl
      have hg' : ∀ l' ∈ ls,
          lineMatches (stream_commit s (ntrip_str_parse (l.drop NTRIP_STR.length))).mountpoint l' = true →
          gatesOK (ntrip_str_parse (l'.drop NTRIP_STR.length)) = true := by
        rw [hmp]
        exact fun l' h' => hg l' (by simp [h'])
      have hstep := ih _ true hg'
      rw [hmp] at hstep
      rw [hstep, List.filter_cons_of_pos hm]
      cases hfl : (ls.filter (lineMatches s.mountpoint)).getLast? with
      | none =>
        have hnil : ls.filter (lineMatches s.mountpoint) = [] := by
          cases hc : ls.filter (lineMatches s.mountpoint) with
          | nil => rfl
          | cons a b => rw [hc] at hfl; simp [List.getLast?_eq_getLast] at hfl
        rw [hnil]
        simp
      | some lastL =>
        have hcons : (l :: ls.filter (lineMatches s.mountpoint)).getLast? = some lastL := by
          cases hc : ls.filter (lineMatches s.mountpoint) with
          | nil => rw [hc] at hfl; simp at hfl
          | cons a b =>
            rw [hc] at hfl
            rw [List.getLast?_cons_cons, hfl]
        rw [hcons]
        simp [stream_commit_commit]
    · have hm' : lineMatches s.mountpoint l = false := by simpa using hm
      simp only [runLines, line_process_no_match hm']
      rw [List.filter_cons_of_neg (by simp [hm'])]
      exact ih s m (fun l' h' => hg l' (by simp [h']))

/-- When the first matching record fails a capability gate, processing stops
with `-1` and the descriptor is left exactly as it was. -/
theorem runLines_first_fail : ∀ (pre : List (List Char)) (l : List Char)
    (post : List (List Char)) (s : NtripStream) (m : Bool),
    (∀ l' ∈ pre, lineMatches s.mountpoint l' = false) →
    lineMatches s.mountpoint l = true →
    gatesOK (ntrip_str_parse (l.drop NTRIP_STR.length)) = false →
    runLines s m (pre ++ l :: post) = .fail s m := by
  intro pre
  induction pre with
  | nil =>
    intro l post s m _ hm hg
    rw [List.nil_append]
    simp only [runLines, line_process_match_bad hm hg]
  | cons p pre' ih =>
    intro l post s m hpre hm hg
    have hp : lineMatches s.mountpoint p = false := hpre p (by simp)
    rw [List.cons_append]
    simp only [runLines, line_process_no_match hp]
    exact ih l post s m (fun l' h' => hpre l' (by simp [h'])) hm hg

/-! ## Lemmas: a whole sourcetable delivered in one read -/

/-- With the banner not yet consumed, a single read delivering the banner, a
list of well-formed complete lines and the `ENDSOURCETABLE` terminator makes
the driver behave exactly as processing the lines in order: `-1` at the first
failing capability gate, otherwise 1 or -1 at the terminator according to
whether some record matched; the device flag is set and the descriptor is the
one produced by the line processing. -/
theorem driver_single_chunk (st : NtripState) (lines : List (List Char))
    (hflag : st.sourcetable_parse = false)
    (hwf : ∀ l ∈ lines, '\r' ∉ l ∧ str_starts_with l NTRIP_ENDSOURCETABLE = false)
    (hlen : (NTRIP_SOURCETABLE ++ (joinBR lines ++ NTRIP_ENDSOURCETABLE)).length ≤ BUFSIZ - 1) :
    ntrip_sourcetable_parse st
        [.chunk (NTRIP_SOURCETABLE ++ (joinBR lines ++ NTRIP_ENDSOURCETABLE))] =
      match runLines st.stream false lines with
      | .fail s' _ => some (-1, { sourcetable_parse := true, stream := s' })
      | .done s' m' =>
        some (((if m' then 1 else -1) : Int),
              { sourcetable_parse := true, stream := s' }) := by
  have hc : NTRIP_SOURCETABLE ++ (joinBR lines ++ NTRIP_ENDSOURCETABLE) ≠ [] := by
    simp [NTRIP_SOURCETABLE, cs]
  have htake : (NTRIP_SOURCETABLE ++ (joinBR lines ++ NTRIP_ENDSOURCETABLE)).take
      (BUFSIZ - 1 - ([] : List Char).length) =
      NTRIP_SOURCETABLE ++ (joinBR lines ++ NTRIP_ENDSOURCETABLE) := by
    apply List.take_of_length_le
    simpa using hlen
  have hb : str_starts_with (NTRIP_SOURCETABLE ++ (joinBR lines ++ NTRIP_ENDSOURCETABLE))
      NTRIP_SOURCETABLE = true := starts_append_self _ _
  have hdrop : (NTRIP_SOURCETABLE ++ (joinBR lines ++ NTRIP_ENDSOURCETABLE)).drop
      NTRIP_SOURCETABLE.length = joinBR lines ++ NTRIP_ENDSOURCETABLE :=
    List.drop_left _ _
  have hwalk := walkF_joinBR lines ((joinBR lines ++ NTRIP_ENDSOURCETABLE).length + 1)
    st.stream false hwf (Nat.lt_succ_self _)
  unfold ntrip_sourcetable_parse parseLoop
  simp only [if_neg hc, List.nil_append, htake, hflag, Bool.false_eq_true, if_false,
    hb, if_true, hdrop]
  cases hr : runLines st.stream false lines with
  | fail s' m' =>
    rw [hr] at hwalk
    rw [walk_eq_of_walkF hwalk]
  | done s' m' =>
    rw [hr] at hwalk
    rw [walk_eq_of_walkF hwalk]

/-! ## Lemmas: the descriptor invariant -/

/-- A fresh commit always satisfies the descriptor invariant: only records
that passed the capability gates are committed. -/
theorem line_process_inv {s s' : NtripStream} {m m' : Bool} {l : List Char}
    (hinv : streamInv s) (h : ntrip_line_process s m l = some (s', m')) :
    streamInv s' := by
  unfold ntrip_line_process at h
  by_cases hstr : str_starts_with l NTRIP_STR = true
  · rw [hstr] at h
    simp only [if_true] at h
    by_cases hmp : s.mountpoint = (ntrip_str_parse (l.drop NTRIP_STR.length)).mountpoint
    · rw [if_pos hmp] at h
      by_cases h1 : (ntrip_str_parse (l.drop NTRIP_STR.length)).format = .fmt_unknown
      · simp [h1] at h
      · rw [if_neg h1] at h
        by_cases h2 : (ntrip_str_parse (l.drop NTRIP_STR.length)).compr_encryp ≠ .cmp_enc_none
        · simp [h2] at h
        · rw [if_neg h2] at h
          by_cases h3 : (ntrip_str_parse (l.drop NTRIP_STR.length)).authentication ≠ .auth_none ∧
              (ntrip_str_parse (l.drop NTRIP_STR.length)).authentication ≠ .auth_basic
          · simp [h3] at h
          · rw [if_neg h3] at h
            simp only [Option.some.injEq, Prod.mk.injEq] at h
            obtain ⟨hs, -⟩ := h
            subst hs
            intro _
            push_neg at h2 h3
            refine ⟨h1, h2, ?_⟩
            by_cases ha : (ntrip_str_parse (l.drop NTRIP_STR.length)).authentication = .auth_none
            · exact Or.inl ha
            · exact Or.inr (h3 ha)
    · rw [if_neg hmp] at h
      simp only [Option.some.injEq, Prod.mk.injEq] at h
      obtain ⟨hs, -⟩ := h
      subst hs
      exact hinv
  · have hstr' : str_starts_with l NTRIP_STR = false := by simpa using hstr
    rw [hstr'] at h
    simp only [Bool.false_eq_true, if_false, Option.some.injEq, Prod.mk.injEq] at h
    obtain ⟨hs, -⟩ := h
    subst hs
    exact hinv

/-- The line-walk preserves the descriptor invariant. -/
theorem walkF_inv : ∀ (fuel : Nat) (s : NtripStream) (m : Bool)
    (acc : List Char) (out : WalkOut), streamInv s →
    walkF fuel s m acc = some out →
    (∀ code s' m', out = .ret code s' m' → streamInv s') ∧
    (∀ left s' m', out = .more left s' m' → streamInv s') := by
  intro fuel
  induction fuel with
  | zero => intro s m acc out _ h; simp [walkF] at h
  | succ fuel ih =>
    intro s m acc out hinv h
    unfold walkF at h
    by_cases hacc : acc = []
    · rw [if_pos hacc] at h
      simp only [Option.some.injEq] at h
      subst h
      refine ⟨fun _ _ _ hc => (by cases hc), fun _ s' _ hc => ?_⟩
      cases hc; exact hinv
    · rw [if_neg hacc] at h
      by_cases hend : str_starts_with acc NTRIP_ENDSOURCETABLE = true
      · rw [hend] at h
        simp only [if_true, Option.some.injEq] at h
        subst h
        refine ⟨fun _ s' _ hc => ?_, fun _ _ _ hc => (by cases hc)⟩
        cases hc; exact hinv
      · have hend' : str_starts_with acc NTRIP_ENDSOURCETABLE = false := by simpa using hend
        rw [hend'] at h
        simp only [Bool.false_eq_true, if_false] at h
        cases hf : findSub acc NTRIP_BR with
        | none =>
          simp only [hf, Option.some.injEq] at h
          subst h
          refine ⟨fun _ _ _ hc => (by cases hc), fun _ s' _ hc => ?_⟩
          cases hc; exact hinv
        | some i =>
          simp only [hf] at h
          cases hp : ntrip_line_process s m (acc.take i) with
          | none =>
            simp only [hp, Option.some.injEq] at h
            subst h
            refine ⟨fun _ s' _ hc => ?_, fun _ _ _ hc => (by cases hc)⟩
            cases hc; exact hinv
          | some sm =>
            obtain ⟨s1, m1⟩ := sm
            simp only [hp] at h
            exact ih s1 m1 _ out (line_process_inv hinv hp) h

/-- Invariant preservation for the total line-walk wrapper. -/
theorem walk_inv (s : NtripStream) (m : Bool) (acc : List Char)
    (hinv : streamInv s) :
    (∀ code s' m', walk s m acc = .ret code s' m' → streamInv s') ∧
    (∀ left s' m', walk s m acc = .more left s' m' → streamInv s') := by
  have hsome : walkF (acc.length + 1) s m acc = some (walk s m acc) := by
    cases hx : walkF (acc.length + 1) s m acc with
    | none =>
      have hs := walkF_isSome (acc.length + 1) s m acc (Nat.lt_succ_self _)
      rw [hx] at hs; cases hs
    | some o => simp [walk, hx]
  exact walkF_inv (acc.length + 1) s m acc (walk s m acc) hinv hsome

/-- The read loop of the driver preserves the descriptor invariant. -/
theorem parseLoop_inv : ∀ (sched : List ReadRes) (st : NtripState) (loc m : Bool)
    (acc : List Char) (code : Int) (st' : NtripState), streamInv st.stream →
    parseLoop st loc m acc sched = some (code, st') → streamInv st'.stream := by
  intro sched
  induction sched with
  | nil => intro st loc m acc code st' _ h; simp [parseLoop] at h
  | cons r rs ih =>
    intro st loc m acc code st' hinv h
    cases r with
    | eintr =>
      unfold parseLoop at h
      exact ih st loc m acc code st' hinv h
    | eagain =>
      unfold parseLoop at h
      by_cases h1 : (loc && !m) = true
      · rw [h1] at h
        simp only [if_true, Option.some.injEq, Prod.mk.injEq] at h
        obtain ⟨-, hst⟩ := h; subst hst; exact hinv
      · have h1' : (loc && !m) = false := by simpa using h1
        rw [h1'] at h
        simp only [Bool.false_eq_true, if_false] at h
        by_cases h2 : m = true
        · rw [if_pos h2] at h
          simp only [Option.some.injEq, Prod.mk.injEq] at h
          obtain ⟨-, hst⟩ := h; subst hst; exact hinv
        · rw [if_neg h2] at h
          simp only [Option.some.injEq, Prod.mk.injEq] at h
          obtain ⟨-, hst⟩ := h; subst hst; exact hinv
    | rerr =>
      unfold parseLoop at h
      by_cases h2 : m = true
      · rw [if_pos h2] at h
        simp only [Option.some.injEq, Prod.mk.injEq] at h
        obtain ⟨-, hst⟩ := h; subst hst; exact hinv
      · rw [if_neg h2] at h
        simp only [Option.some.injEq, Prod.mk.injEq] at h
        obtain ⟨-, hst⟩ := h; subst hst; exact hinv
    | chunk c =>
      unfold parseLoop at h
      by_cases hce : c = []
      · rw [if_pos hce] at h
        simp only [Option.some.injEq, Prod.mk.injEq] at h
        obtain ⟨-, hst⟩ := h; subst hst; exact hinv
      · rw [if_neg hce] at h
        simp only at h
        by_cases hflag : st.sourcetable_parse = true
        · rw [hflag] at h
          simp only [if_true] at h
          cases hw : walk st.stream m (acc ++ c.take (BUFSIZ - 1 - acc.length)) with
          | ret code2 s2 m2 =>
            simp only [hw] at h
            simp only [Option.some.injEq, Prod.mk.injEq] at h
            obtain ⟨-, hst⟩ := h; subst hst
            exact (walk_inv st.stream m _ hinv).1 code2 s2 m2 hw
          | more left s2 m2 =>
            simp only [hw] at h
            have hs2 := (walk_inv st.stream m _ hinv).2 left s2 m2 hw
            by_cases hfull : left.length = BUFSIZ - 1
            · rw [if_pos hfull] at h
              simp only [Option.some.injEq, Prod.mk.injEq] at h
              obtain ⟨-, hst⟩ := h; subst hst
              exact hs2
            · rw [if_neg hfull] at h
              exact ih _ true m2 left code st' hs2 h
        · have hflag' : st.sourcetable_parse = false := by simpa using hflag
          rw [hflag'] at h
          simp only [Bool.false_eq_true, if_false] at h
          by_cases hban : str_starts_with (acc ++ c.take (BUFSIZ - 1 - acc.length))
              NTRIP_SOURCETABLE = true
          · rw [hban] at h
            simp only [if_true] at h
            cases hw : walk st.stream m
                ((acc ++ c.take (BUFSIZ - 1 - acc.length)).drop NTRIP_SOURCETABLE.length) with
            | ret code2 s2 m2 =>
              simp only [hw] at h
              simp only [Option.some.injEq, Prod.mk.injEq] at h
              obtain ⟨-, hst⟩ := h; subst hst
              exact (walk_inv st.stream m _ hinv).1 code2 s2 m2 hw
            | more left s2 m2 =>
              simp only [hw] at h
              have hs2 := (walk_inv st.stream m _ hinv).2 left s2 m2 hw
              by_cases hfull : left.length = BUFSIZ - 1
              · rw [if_pos hfull] at h
                simp only [Option.some.injEq, Prod.mk.injEq] at h
                obtain ⟨-, hst⟩ := h; subst hst
                exact hs2
              · rw [if_neg hfull] at h
                exact ih _ true m2 left code st' hs2 h
          · have hban' : str_starts_with (acc ++ c.take (BUFSIZ - 1 - acc.length))
                NTRIP_SOURCETABLE = false := by simpa using hban
            rw [hban'] at h
            simp only [Bool.false_eq_true, if_false, Option.some.injEq, Prod.mk.injEq] at h
            obtain ⟨-, hst⟩ := h; subst hst
            exact hinv

/-! ## Lemmas: tokenizer step structure -/

theorem fieldIterate_decomp_some {r f rest : List Char}
    (h : ntrip_field_iterate r = (f, some rest)) : r = f ++ ';' :: rest := by
  unfold ntrip_field_iterate at h
  cases hf : findSub (r.drop (qscSkip r)) (cs ";") with
  | none => simp [hf] at h
  | some j =>
    simp only [hf, Prod.mk.injEq, Option.some.injEq] at h
    obtain ⟨hfeq, hreq⟩ := h
    have hpre := (findSub_bound hf).2
    rw [List.drop_drop] at hpre
    have hone : cs ";" = [';'] := rfl
    rw [hone] at hpre
    cases hd : r.drop (qscSkip r + j) with
    | nil =>
      rw [hd] at hpre
      simp [List.isPrefixOf] at hpre
    | cons a tail =>
      rw [hd] at hpre
      have ha : a = ';' := by
        simp [List.isPrefixOf] at hpre
        exact hpre.symm
      have htail : tail = r.drop (qscSkip r + j + 1) := by
        have hstep : r.drop (qscSkip r + j + 1) = (r.drop (qscSkip r + j)).drop 1 := by
          rw [List.drop_drop]
        rw [hstep, hd, List.drop_one, List.tail_cons]
      calc r = r.take (qscSkip r + j) ++ r.drop (qscSkip r + j) :=
              (List.take_append_drop _ _).symm
        _ = f ++ ';' :: rest := by rw [hd, ha, hfeq, htail, hreq]

theorem fieldIterate_decomp_none {r f : List Char}
    (h : ntrip_field_iterate r = (f, none)) : f = r := by
  unfold ntrip_field_iterate at h
  cases hf : findSub (r.drop (qscSkip r)) (cs ";") with
  | none =>
    simp only [hf, Prod.mk.injEq] at h
    exact h.1.symm
  | some j => simp [hf] at h

theorem findSub_none_cons {x : Char} {t p : List Char}
    (h : findSub (x :: t) p = none) :
    p.isPrefixOf (x :: t) = false ∧ findSub t p = none := by
  unfold findSub at h
  by_cases hp : p.isPrefixOf (x :: t)
  · simp [hp] at h
  · refine ⟨by simpa only [Bool.not_eq_true] using hp, ?_⟩
    rw [if_neg hp] at h
    have h' : (findSub t p).map (· + 1) = none := h
    cases hft : findSub t p with
    | none => rfl
    | some j => rw [hft] at h'; simp at h'

theorem qscSkip_of_none {r : List Char} (h : findSub r NTRIP_QSC = none) :
    qscSkip r = 0 := by
  unfold qscSkip qscSkipF
  rw [h]
  rfl

theorem findSub_semi_eq_strchr : ∀ (r : List Char),
    findSub r (cs ";") = strchr r ';' := by
  intro r
  induction r with
  | nil => rfl
  | cons x t ih =>
    by_cases hx : x = ';'
    · subst hx
      have hpre : (cs ";").isPrefixOf (';' :: t) = true := by
        show ([';'] : List Char).isPrefixOf (';' :: t) = true
        simp [List.isPrefixOf]
      simp [findSub, hpre, strchr]
    · have hpre : (cs ";").isPrefixOf (x :: t) = false := by
        show ([';'] : List Char).isPrefixOf (x :: t) = false
        simp [List.isPrefixOf]
        exact fun hc => hx hc.symm
      unfold findSub
      rw [hpre]
      simp only [Bool.false_eq_true, if_false]
      show (findSub t (cs ";")).map (· + 1) = strchr (x :: t) ';'
      unfold strchr
      rw [if_neg hx, ih]

theorem specFieldIdxF_no_qsc : ∀ (fuel : Nat) (r : List Char) (pos : Nat),
    findSub r NTRIP_QSC = none → r.length < fuel →
    specFieldIdxF fuel r pos = (strchr r ';').map (fun j => pos + j) := by
  intro fuel
  induction fuel with
  | zero => intro r pos _ h; omega
  | succ fuel ih =>
    intro r pos hq hlen
    cases r with
    | nil => simp [specFieldIdxF, strchr]
    | cons c tail =>
      obtain ⟨hpre, hq'⟩ := findSub_none_cons hq
      unfold specFieldIdxF
      rw [hpre]
      simp only [Bool.false_eq_true, if_false]
      by_cases hc : c = ';'
      · have hs : strchr (c :: tail) ';' = some 0 := by
          show (if c = ';' then some 0 else (strchr tail ';').map (· + 1)) = some 0
          rw [if_pos hc]
        rw [if_pos hc, hs]
        simp
      · have hs : strchr (c :: tail) ';' = (strchr tail ';').map (· + 1) := by
          show (if c = ';' then some 0 else (strchr tail ';').map (· + 1)) = _
          rw [if_neg hc]
        rw [if_neg hc, hs,
          ih tail (pos + 1) hq' (by simpa using Nat.lt_of_succ_lt_succ hlen)]
        cases strchr tail ';' with
        | none => rfl
        | some j => simp only [Option.map_some', Option.some.injEq]; omega

/-- Under no occurrence of the quoted-delimiter escape, the code's tokenizer
step agrees with the specification's description. -/
theorem fieldIterate_eq_spec_of_no_qsc {r : List Char}
    (h : containsSub r NTRIP_QSC = false) :
    ntrip_field_iterate r = ntrip_spec_field_step r := by
  have hq : findSub r NTRIP_QSC = none := by
    unfold containsSub at h
    cases hx : findSub r NTRIP_QSC with
    | none => rfl
    | some j => rw [hx] at h; simp at h
  have ht := qscSkip_of_none hq
  have hspec := specFieldIdxF_no_qsc (r.length + 1) r 0 hq (Nat.lt_succ_self _)
  unfold ntrip_field_iterate ntrip_spec_field_step
  rw [ht, hspec]
  simp only [List.drop_zero, findSub_semi_eq_strchr]
  cases strchr r ';' with
  | none => rfl
  | some j => simp

/-! ## Lemmas: `strchr`/`strrchr` correctness -/

theorem strchr_get : ∀ {s : List Char} {c : Char} {i : Nat},
    strchr s c = some i → s.get? i = some c := by
  intro s
  induction s with
  | nil => intro c i h; simp [strchr] at h
  | cons x xs ih =>
    intro c i h
    unfold strchr at h
    by_cases hx : x = c
    · rw [if_pos hx] at h
      simp only [Option.some.injEq] at h
      subst h
      simp [hx]
    · rw [if_neg hx] at h
      cases hft : strchr xs c with
      | none => rw [hft] at h; simp at h
      | some j =>
        rw [hft] at h
        simp only [Option.map_some', Option.some.injEq] at h
        subst h
        simpa using ih hft

theorem strchr_first : ∀ {s : List Char} {c : Char} {i : Nat},
    strchr s c = some i → ∀ j, j < i → s.get? j ≠ some c := by
  intro s
  induction s with
  | nil => intro c i h; simp [strchr] at h
  | cons x xs ih =>
    intro c i h j hj
    unfold strchr at h
    by_cases hx : x = c
    · rw [if_pos hx] at h
      simp only [Option.some.injEq] at h
      omega
    · rw [if_neg hx] at h
      cases hft : strchr xs c with
      | none => rw [hft] at h; simp at h
      | some j' =>
        rw [hft] at h
        simp only [Option.map_some', Option.some.injEq] at h
        subst h
        cases j with
        | zero => simpa using fun hc => hx hc
        | succ j0 =>
          simp only [List.get?_cons_succ]
          exact ih hft j0 (by omega)

theorem strchr_none : ∀ {s : List Char} {c : Char},
    strchr s c = none → ∀ j, s.get? j ≠ some c := by
  intro s
  induction s with
  | nil => intro c _ j; simp
  | cons x xs ih =>
    intro c h j
    unfold strchr at h
    by_cases hx : x = c
    · simp [hx] at h
    · rw [if_neg hx] at h
      cases hft : strchr xs c with
      | some j' => rw [hft] at h; simp at h
      | none =>
        cases j with
        | zero => simpa using fun hc => hx hc
        | succ j0 => simpa using ih hft j0

theorem strchr_isSome : ∀ {s : List Char} {c : Char} {j : Nat},
    s.get? j = some c → (strchr s c).isSome := by
  intro s c j h
  cases hx : strchr s c with
  | some i => simp
  | none => exact absurd h (strchr_none hx j)

theorem strrchr_get : ∀ {s : List Char} {c : Char} {i : Nat},
    strrchr s c = some i → s.get? i = some c := by
  intro s
  induction s with
  | nil => intro c i h; simp [strrchr] at h
  | cons x xs ih =>
    intro c i h
    unfold strrchr at h
    cases hft : strrchr xs c with
    | some j =>
      rw [hft] at h
      simp only [Option.some.injEq] at h
      subst h
      simpa using ih hft
    | none =>
      rw [hft] at h
      by_cases hx : x = c
      · rw [if_pos hx] at h
        simp only [Option.some.injEq] at h
        subst h
        simp [hx]
      · simp [hx] at h

theorem strrchr_none : ∀ {s : List Char} {c : Char},
    strrchr s c = none → ∀ j, s.get? j ≠ some c := by
  intro s
  induction s with
  | nil => intro c _ j; simp
  | cons x xs ih =>
    intro c h j
    unfold strrchr at h
    cases hft : strrchr xs c with
    | some j' => rw [hft] at h; simp at h
    | none =>
      rw [hft] at h
      by_cases hx : x = c
      · simp [hx] at h
      · cases j with
        | zero => simpa using fun hc => hx hc
        | succ j0 => simpa using ih hft j0

/-- `strrchr` finds exactly the position known to hold the character with no
later occurrence. -/
theorem strrchr_eq_of : ∀ {s : List Char} {c : Char} {a : Nat},
    s.get? a = some c → (∀ j, a < j → s.get? j ≠ some c) →
    strrchr s c = some a := by
  intro s
  induction s with
  | nil => intro c a h _; simp at h
  | cons x xs ih =>
    intro c a ha hlast
    unfold strrchr
    cases a with
    | zero =>
      simp only [List.get?_cons_zero, Option.some.injEq] at ha
      have hnone : strrchr xs c = none := by
        cases hft : strrchr xs c with
        | none => rfl
        | some j =>
          have := strrchr_get hft
          have hcontra := hlast (j + 1) (by omega)
          simp only [List.get?_cons_succ] at hcontra
          exact absurd this hcontra
      rw [hnone, if_pos ha]
    | succ a0 =>
      simp only [List.get?_cons_succ] at ha
      have hlast' : ∀ j, a0 < j → xs.get? j ≠ some c := by
        intro j hj
        have := hlast (j + 1) (by omega)
        simpa using this
      rw [ih ha hlast']

/-! ## Lemmas: lowercase-prefix bridge for the dispatcher -/

/-- The modelled prefix test succeeds exactly when the lowercase-folded
prefix of the string equals the lowercase-folded pattern. -/
theorem starts_iff_lower_take : ∀ (p s : List Char),
    str_starts_with s p = true ↔ (s.take p.length).map lowerC = p.map lowerC := by
  intro p
  induction p with
  | nil => intro s; simp [str_starts_with]
  | cons q ps ih =>
    intro s
    cases s with
    | nil => simp [str_starts_with]
    | cons x xs =>
      simp only [str_starts_with, Bool.and_eq_true, List.length_cons, List.take_succ_cons,
        List.map_cons, List.cons.injEq]
      constructor
      · rintro ⟨h1, h2⟩
        have h1' : lowerC x = lowerC q := by
          unfold ciEq at h1
          exact of_decide_eq_true h1
        exact ⟨h1', (ih xs).mp h2⟩
      · rintro ⟨h1, h2⟩
        refine ⟨?_, (ih xs).mpr h2⟩
        unfold ciEq
        exact decide_eq_true h1

/-! ## Concrete instances used by the claim theorems -/

/-- A device state requesting mountpoint `M`, before the probe response. -/
def stM : NtripState := { stream := { mountpoint := cs "M" } }

/-- The same device state after the banner has been consumed. -/
def stMparsed : NtripState := { stM with sourcetable_parse := true }

/-- A sourcetable with two `STR` records for the requested mountpoint `M`,
differing in format (RTCM 3.0 vs RTCM 2) and carrier (1 vs 2). -/
def c1table : List Char :=
  NTRIP_SOURCETABLE ++ (cs "STR;M;;RTCM 3.0;;1\r\nSTR;M;;RTCM 2;;2\r\nENDSOURCETABLE")

/-- A small valid sourcetable whose only record matches mountpoint `M`. -/
def c3table : List Char :=
  NTRIP_SOURCETABLE ++ (cs "STR;M\r\nENDSOURCETABLE")

/-- A GET response containing the bare token `SOURCETABLE 200 OK` (no CRLF)
together with the ICY success token. -/
def c7buf : List Char := cs "SOURCETABLE 200 OKICY 200 OK"

/-! ## Claim theorems -/

/-- C1 (counterexample): the claim "only the first STR record whose mountpoint
equals the requested one determines the committed descriptor" is false: on a
sourcetable whose first matching record advertises RTCM 3.0 with carrier 1 and
whose second matching record advertises RTCM 2 with carrier 2, the driver
returns 1 with the committed descriptor carrying the second record's format
and carrier, not the first's. -/
theorem C1_counterexample :
    ntrip_sourcetable_parse stM [.chunk c1table] =
      some (1, { sourcetable_parse := true,
                 stream := { mountpoint := cs "M", format := .fmt_rtcm2,
                             carrier := 2, set := true } }) ∧
    (ntrip_str_parse ((cs "STR;M;;RTCM 3.0;;1").drop NTRIP_STR.length)).format
      = .fmt_rtcm3_0 ∧
    (ntrip_str_parse ((cs "STR;M;;RTCM 3.0;;1").drop NTRIP_STR.length)).carrier
      = 1 :=
  ⟨rfl, rfl, rfl⟩

/-- C1 (amended): once a record matching the requested mountpoint has been
committed, reading continues to end-of-table; every later matching STR record
is re-gated and re-committed, so for a sourcetable containing two or more
matching records (all passing the capability gates) the driver returns 1 and
the committed descriptor carries the fields of the **last** matching record. -/
theorem C1_last_match_commits (st : NtripState) (lines : List (List Char))
    (lastL : List Char)
    (hflag : st.sourcetable_parse = false)
    (hwf : ∀ l ∈ lines, '\r' ∉ l ∧ str_starts_with l NTRIP_ENDSOURCETABLE = false)
    (hlen : (NTRIP_SOURCETABLE ++ (joinBR lines ++ NTRIP_ENDSOURCETABLE)).length
      ≤ BUFSIZ - 1)
    (hg : ∀ l ∈ lines, lineMatches st.stream.mountpoint l = true →
      gatesOK (ntrip_str_parse (l.drop NTRIP_STR.length)) = true)
    (_h2 : 2 ≤ (lines.filter (lineMatches st.stream.mountpoint)).length)
    (hlast : (lines.filter (lineMatches st.stream.mountpoint)).getLast? = some lastL) :
    ntrip_sourcetable_parse st
        [.chunk (NTRIP_SOURCETABLE ++ (joinBR lines ++ NTRIP_ENDSOURCETABLE))] =
      some (1, { sourcetable_parse := true,
                 stream := stream_commit st.stream
                   (ntrip_str_parse (lastL.drop NTRIP_STR.length)) }) := by
  have hrun := runLines_last_match lines st.stream false hg
  rw [hlast] at hrun
  rw [driver_single_chunk st lines hflag hwf hlen, hrun]
  rfl

/-- C1 (witness): the amended theorem applied to the concrete two-record
sourcetable of the counterexample. -/
theorem C1_witness :
    ((cs "STR;M;;RTCM 3.0;;1" :: [cs "STR;M;;RTCM 2;;2"]).filter
        (lineMatches stM.stream.mountpoint)).getLast? = some (cs "STR;M;;RTCM 2;;2") ∧
    ntrip_sourcetable_parse stM
        [.chunk (NTRIP_SOURCETABLE ++
          (joinBR (cs "STR;M;;RTCM 3.0;;1" :: [cs "STR;M;;RTCM 2;;2"]) ++
            NTRIP_ENDSOURCETABLE))] =
      some (1, { sourcetable_parse := true,
                 stream := stream_commit stM.stream
                   (ntrip_str_parse ((cs "STR;M;;RTCM 2;;2").drop NTRIP_STR.length)) }) :=
  ⟨by decide,
   C1_last_match_commits stM _ _ rfl (by decide) (by decide) (by decide) (by decide)
     (by decide)⟩

/-- C2 (code bug): with the device flag `sourcetable_parse` already true (the
banner was consumed in an earlier invocation) and no match yet, a fresh
invocation whose first read yields `EAGAIN` returns -1 — not 0 as the spec
requires — because the local `sourcetable` flag is initialised false and only
refreshed from the device after a successful read.  In contrast, an `EAGAIN`
hitting after a successful read in the same invocation does return 0. -/
theorem C2_eagain_resume_returns_error :
    ntrip_sourcetable_parse stMparsed [.eagain] = some (-1, stMparsed) ∧
    ntrip_sourcetable_parse stM [.chunk NTRIP_SOURCETABLE, .eagain] =
      some (0, stMparsed) :=
  ⟨rfl, rfl⟩

/-- C3 (counterexample): a sourcetable delivered one byte per read does not
parse: the driver returns -1 on the first one-byte read, while the same bytes
delivered in a single read commit the matching record and return 1. -/
theorem C3_counterexample :
    (ntrip_sourcetable_parse stM (c3table.map (fun ch => ReadRes.chunk [ch]))).map
        Prod.fst = some (-1) ∧
    (ntrip_sourcetable_parse stM [.chunk c3table]).map Prod.fst = some 1 :=
  ⟨rfl, rfl⟩

/-- C3 (amended): the driver does not reassemble the `SOURCETABLE 200 OK`
banner across reads: whenever the banner has not yet been consumed, an
invocation whose first read returns a single byte fails the banner check and
returns -1, for every byte and whatever data follows. -/
theorem C3_one_byte_read_fails (st : NtripState) (h : st.sourcetable_parse = false)
    (c : Char) (rest : List ReadRes) :
    ntrip_sourcetable_parse st (.chunk [c] :: rest) = some (-1, st) := by
  have hne : ([c] : List Char) ≠ [] := by simp
  have htake : ([c] : List Char).take (BUFSIZ - 1 - ([] : List Char).length) = [c] := by
    apply List.take_of_length_le
    simp [BUFSIZ]
  have hb : str_starts_with [c] NTRIP_SOURCETABLE = false := by
    have hface : NTRIP_SOURCETABLE = 'S' :: 'O' :: cs "URCETABLE 200 OK\r\n" := rfl
    rw [hface]
    simp [str_starts_with]
  unfold ntrip_sourcetable_parse parseLoop
  simp only [if_neg hne, List.nil_append, htake, h, Bool.false_eq_true, if_false, hb]

/-- C3 (witness): the amended theorem applied at a concrete state and byte. -/
theorem C3_witness :
    stM.sourcetable_parse = false ∧
    ntrip_sourcetable_parse stM [.chunk ['S']] = some (-1, stM) :=
  ⟨rfl, C3_one_byte_read_fails stM rfl 'S' []⟩

/-- C4 (counterexample): the claim that each tokenizer step returns the field
extending exactly to the next `;` that is not part of a `";"` escape is
false: on the line `;";"` the next unescaped `;` is at index 0 (the spec's
step returns the empty field), but the code's skip loop jumps past the later
`";"` occurrence first and returns the whole line as a single field. -/
theorem C4_counterexample :
    ntrip_field_iterate (cs ";\";\"") = (cs ";\";\"", none) ∧
    ntrip_spec_field_step (cs ";\";\"") = ([], some (cs "\";\"")) ∧
    cs ";\";\"" ≠ ([] : List Char) :=
  ⟨rfl, rfl, by decide⟩

/-- C4 (amended): each tokenizer step NULs some `;` of the remainder and
returns the field before it and the remainder after it (so the line is the
field, the delimiter and the rest), or returns the whole remainder as the
final field when no `;` is chosen; the chosen `;` is the first one at or
after the position reached by repeatedly jumping past the first remaining
`";"` occurrence, which agrees with the specification's "next unescaped `;`"
exactly on lines without any `";"` occurrence. -/
theorem C4_field_extent :
    (∀ r f rest : List Char, ntrip_field_iterate r = (f, some rest) →
      r = f ++ ';' :: rest) ∧
    (∀ r f : List Char, ntrip_field_iterate r = (f, none) → f = r) ∧
    (∀ r : List Char, containsSub r NTRIP_QSC = false →
      ntrip_field_iterate r = ntrip_spec_field_step r) :=
  ⟨fun _ _ _ h => fieldIterate_decomp_some h,
   fun _ _ h => fieldIterate_decomp_none h,
   fun _ h => fieldIterate_eq_spec_of_no_qsc h⟩

/-- C4 (witness): the amended theorem applied at concrete lines. -/
theorem C4_witness :
    ntrip_field_iterate (cs "a;b") = (cs "a", some (cs "b")) ∧
    cs "a;b" = cs "a" ++ ';' :: cs "b" ∧
    containsSub (cs "ab") NTRIP_QSC = false ∧
    ntrip_field_iterate (cs "ab") = ntrip_spec_field_step (cs "ab") :=
  ⟨rfl, C4_field_extent.1 _ _ _ rfl, by decide, C4_field_extent.2.2 _ (by decide)⟩

/-- C5: the NTRIP URI credential/caster split: when the input holds no `@`,
the whole input is the caster and no credentials are taken; at the rightmost
`@`, the split into credentials (before) and caster (after) happens exactly
when some `:` occurs strictly to its left, and otherwise the whole input is
again the caster with no credentials. -/
theorem C5_credentials_split (s : List Char) :
    ((∀ i, i < s.length → s.get? i ≠ some '@') → cred_split s = (none, s)) ∧
    (∀ a, s.get? a = some '@' → (∀ j, j < s.length → a < j → s.get? j ≠ some '@') →
      (((∃ j, j < a ∧ s.get? j = some ':') →
          cred_split s = (some (s.take a), s.drop (a + 1))) ∧
       ((∀ j, j < a → s.get? j ≠ some ':') → cred_split s = (none, s)))) := by
  constructor
  · intro hno
    have hnone : strrchr s '@' = none := by
      cases hx : strrchr s '@' with
      | none => rfl
      | some a =>
        have hg := strrchr_get hx
        have ha : a < s.length := by
          by_contra hc
          rw [List.get?_eq_none.mpr (by omega)] at hg
          cases hg
        exact absurd hg (hno a ha)
    unfold cred_split
    rw [hnone]
  · intro a ha hlast
    have hlast' : ∀ j, a < j → s.get? j ≠ some '@' := by
      intro j hj
      by_cases hjl : j < s.length
      · exact hlast j hjl hj
      · rw [List.get?_eq_none.mpr (by omega)]
        simp
    have hr := strrchr_eq_of ha hlast'
    constructor
    · rintro ⟨j, hj, hcol⟩
      have hcs := strchr_isSome hcol
      cases hc0 : strchr s ':' with
      | none => rw [hc0] at hcs; cases hcs
      | some c0 =>
        have hle : c0 ≤ j := by
          by_contra hgt
          exact absurd hcol (strchr_first hc0 j (by omega))
        unfold cred_split
        simp only [hr, hc0]
        rw [if_pos (show c0 < a by omega)]
    · intro hnoc
      unfold cred_split
      cases hc0 : strchr s ':' with
      | none => simp only [hr, hc0]
      | some c0 =>
        have hget := strchr_get hc0
        have hge : ¬(c0 < a) := fun hlt => absurd hget (hnoc c0 hlt)
        simp only [hr, hc0]
        rw [if_neg hge]

/-- C5 (witness): the split theorem applied to `a:b@h/M`, whose rightmost `@`
is at index 3 with a `:` to its left. -/
theorem C5_witness :
    (cs "a:b@h/M").get? 3 = some '@' ∧
    cred_split (cs "a:b@h/M") = (some (cs "a:b"), cs "h/M") :=
  ⟨by decide,
   ((C5_credentials_split (cs "a:b@h/M")).2 3 (by decide) (by decide)).1
     ⟨1, by decide, by decide⟩⟩

/-- C6: the driver preserves the descriptor invariant — a committed
descriptor (`set = true`) always has a known format, no
compression/encryption, and authentication none or basic; and when the first
record matching the requested mountpoint fails a capability gate, the driver
returns -1 with the descriptor (in particular `set`) exactly as it was. -/
theorem C6_descriptor_invariant :
    (∀ (st : NtripState) (sched : List ReadRes) (code : Int) (st' : NtripState),
      streamInv st.stream → ntrip_sourcetable_parse st sched = some (code, st') →
      streamInv st'.stream) ∧
    (∀ (st : NtripState) (pre : List (List Char)) (l : List Char)
        (post : List (List Char)),
      st.sourcetable_parse = false →
      (∀ l' ∈ pre ++ l :: post, '\r' ∉ l' ∧
        str_starts_with l' NTRIP_ENDSOURCETABLE = false) →
      (NTRIP_SOURCETABLE ++ (joinBR (pre ++ l :: post) ++ NTRIP_ENDSOURCETABLE)).length
        ≤ BUFSIZ - 1 →
      (∀ l' ∈ pre, lineMatches st.stream.mountpoint l' = false) →
      lineMatches st.stream.mountpoint l = true →
      gatesOK (ntrip_str_parse (l.drop NTRIP_STR.length)) = false →
      ntrip_sourcetable_parse st
          [.chunk (NTRIP_SOURCETABLE ++
            (joinBR (pre ++ l :: post) ++ NTRIP_ENDSOURCETABLE))] =
        some (-1, { sourcetable_parse := true, stream := st.stream })) := by
  constructor
  · intro st sched code st' hinv h
    exact parseLoop_inv sched st false false [] code st' hinv h
  · intro st pre l post hflag hwf hlen hpre hm hg
    have hrun := runLines_first_fail pre l post st.stream false hpre hm hg
    rw [driver_single_chunk st _ hflag hwf hlen, hrun]

/-- C6 (witness): both parts applied at concrete inputs: an I/O-error
schedule preserving the invariant, and a one-record table whose matching
record fails the format gate, returning -1 with `set` still false. -/
theorem C6_witness :
    streamInv stM.stream ∧
    ntrip_sourcetable_parse stM [.rerr] = some (-1, stM) ∧
    streamInv stM.stream ∧
    ntrip_sourcetable_parse stM
        [.chunk (NTRIP_SOURCETABLE ++
          (joinBR ([] ++ cs "STR;M;;GZIP" :: []) ++ NTRIP_ENDSOURCETABLE))] =
      some (-1, { sourcetable_parse := true, stream := stM.stream }) := by
  have hinv : streamInv stM.stream := by intro h; exact absurd h (by decide)
  refine ⟨hinv, rfl, C6_descriptor_invariant.1 stM [.rerr] (-1) stM hinv rfl, ?_⟩
  exact C6_descriptor_invariant.2 stM [] (cs "STR;M;;GZIP") [] rfl (by decide)
    (by decide) (by decide) (by decide) (by decide)

/-- C7 (counterexample): the claim that the classifier fails whenever the
buffer contains `SOURCETABLE 200 OK` is false: the code's token includes the
trailing CRLF, so a buffer containing the bare token together with
`ICY 200 OK` succeeds (the socket is returned and set non-blocking). -/
theorem C7_counterexample :
    containsSub c7buf (cs "SOURCETABLE 200 OK") = true ∧
    ntrip_stream_get_parse 5 [.bytes c7buf] = some ⟨5, false, true⟩ ∧
    (5 : Int) ≠ -1 :=
  ⟨rfl, rfl, by decide⟩

/-- C7 (amended): the GET response classifier fails when the buffer contains
`401 Unauthorized`; else fails when it contains `SOURCETABLE 200 OK\r\n`
(with the CRLF); else succeeds — returning the socket and setting it
non-blocking — exactly when it contains `ICY 200 OK`; and otherwise fails
with a protocol error, closing the socket in every failure case. -/
theorem C7_get_response_classifier (dsock : Int) (buf : List Char)
    (rest : List GetRead) :
    (containsSub buf NTRIP_UNAUTH = true →
      ntrip_stream_get_parse dsock (.bytes buf :: rest) = some ⟨-1, true, false⟩) ∧
    (containsSub buf NTRIP_UNAUTH = false →
      containsSub buf NTRIP_SOURCETABLE = true →
      ntrip_stream_get_parse dsock (.bytes buf :: rest) = some ⟨-1, true, false⟩) ∧
    (containsSub buf NTRIP_UNAUTH = false →
      containsSub buf NTRIP_SOURCETABLE = false →
      containsSub buf NTRIP_ICY = true →
      ntrip_stream_get_parse dsock (.bytes buf :: rest) = some ⟨dsock, false, true⟩) ∧
    (containsSub buf NTRIP_UNAUTH = false →
      containsSub buf NTRIP_SOURCETABLE = false →
      containsSub buf NTRIP_ICY = false →
      ntrip_stream_get_parse dsock (.bytes buf :: rest) = some ⟨-1, true, false⟩) := by
  refine ⟨fun h1 => ?_, fun h1 h2 => ?_, fun h1 h2 h3 => ?_, fun h1 h2 h3 => ?_⟩ <;>
    unfold ntrip_stream_get_parse
  · simp [h1]
  · simp [h1, h2]
  · simp [h1, h2, h3]
  · simp [h1, h2, h3]

/-- C7 (witness): the amended classifier applied to a plain ICY response. -/
theorem C7_witness :
    containsSub (cs "ICY 200 OK") NTRIP_UNAUTH = false ∧
    containsSub (cs "ICY 200 OK") NTRIP_SOURCETABLE = false ∧
    containsSub (cs "ICY 200 OK") NTRIP_ICY = true ∧
    ntrip_stream_get_parse 7 [.bytes (cs "ICY 200 OK")] = some ⟨7, false, true⟩ :=
  ⟨by decide, by decide, by decide,
   ((C7_get_response_classifier 7 (cs "ICY 200 OK") []).2.2.1 (by decide) (by decide)
     (by decide))⟩

/-- C8: every call of the reporter increments the counter, and a position
line is written exactly when the stream's nmea flag is non-zero, more than
ten fixes have accumulated, the incremented counter is a multiple of five and
the socket is open; over sixty calls with `nmea = 1`, an open socket and the
fix count rising one per call, the line is written exactly on calls 15, 20,
25, …, 60. -/
theorem C8_report_cadence :
    (∀ count nmea fixcnt fd : Int,
      (ntrip_report count nmea fixcnt fd).1 = count + 1 ∧
      ((ntrip_report count nmea fixcnt fd).2 = true ↔
        (nmea ≠ 0 ∧ fixcnt > 10 ∧ (count + 1) % 5 = 0 ∧ fd > -1))) ∧
    (∀ k : Nat, k < 60 →
      ((ntrip_report_trace 0 1 0 ((List.range 60).map (fun i => (i : Int) + 1))).get? k
          = some true ↔
        (k + 1) ∈ ([15, 20, 25, 30, 35, 40, 45, 50, 55, 60] : List Nat))) := by
  constructor
  · intro count nmea fixcnt fd
    refine ⟨rfl, ?_⟩
    unfold ntrip_report
    by_cases h1 : nmea ≠ 0 ∧ fixcnt > 10 ∧ (count + 1) % 5 = 0
    · by_cases h2 : fd > -1
      · simp only [if_pos h1, if_pos h2, true_iff]
        exact ⟨h1.1, h1.2.1, h1.2.2, h2⟩
      · simp only [if_pos h1, if_neg h2, Bool.false_eq_true, false_iff]
        intro hc
        exact h2 hc.2.2.2
    · simp only [if_neg h1, Bool.false_eq_true, false_iff]
      intro hc
      exact h1 ⟨hc.1, hc.2.1, hc.2.2.1⟩
  · decide

/-- C8 (witness): the cadence theorem applied at call 15 of the scenario. -/
theorem C8_witness :
    (ntrip_report 14 1 15 0).1 = 14 + 1 ∧
    ((ntrip_report 14 1 15 0).2 = true ↔
      ((1 : Int) ≠ 0 ∧ (15 : Int) > 10 ∧ ((14 : Int) + 1) % 5 = 0 ∧ (0 : Int) > -1)) ∧
    ((ntrip_report_trace 0 1 0 ((List.range 60).map (fun i => (i : Int) + 1))).get? 14
        = some true ↔
      (14 + 1) ∈ ([15, 20, 25, 30, 35, 40, 45, 50, 55, 60] : List Nat)) :=
  ⟨(C8_report_cadence.1 14 1 15 0).1, (C8_report_cadence.1 14 1 15 0).2,
   C8_report_cadence.2 14 (by decide)⟩

/-- C9: the dispatcher classifies by lowercase prefix (spec-modelled: the
prefix test of `strfuncs.h` is not under `src/`): a service whose lowercase
prefix is `ntrip://` is routed, with NTRIP support compiled in, to the NTRIP
opener with the scheme stripped; one whose lowercase prefix is `dgpsip://`
to the DGPS/IP opener with the scheme stripped; any other service is handed
whole to the DGPS/IP opener in non-strict mode and fails in strict mode; and
`netgnss_uri_check` accepts exactly the two schemes. -/
theorem C9_dispatch_lowercase (svc : List Char) (strict : Bool) :
    ((svc.take 8).map lowerC = cs "ntrip://" →
      netgnss_uri_open true strict svc = .toNtrip (svc.drop 8)) ∧
    ((svc.take 8).map lowerC ≠ cs "ntrip://" →
      (svc.take 9).map lowerC = cs "dgpsip://" →
      netgnss_uri_open true strict svc = .toDgpsip (svc.drop 9)) ∧
    ((svc.take 8).map lowerC ≠ cs "ntrip://" →
      (svc.take 9).map lowerC ≠ cs "dgpsip://" →
      netgnss_uri_open true strict svc =
        (if strict then .unknownProtocol else .toDgpsip svc)) ∧
    (netgnss_uri_check svc = true ↔
      ((svc.take 8).map lowerC = cs "ntrip://" ∨
        (svc.take 9).map lowerC = cs "dgpsip://")) := by
  have hn8 : NETGNSS_NTRIP.length = 8 := rfl
  have hd9 : NETGNSS_DGPSIP.length = 9 := rfl
  have hnl : NETGNSS_NTRIP.map lowerC = cs "ntrip://" := by decide
  have hdl : NETGNSS_DGPSIP.map lowerC = cs "dgpsip://" := by decide
  have hbn : str_starts_with svc NETGNSS_NTRIP = true ↔
      (svc.take 8).map lowerC = cs "ntrip://" := by
    rw [starts_iff_lower_take, hn8, hnl]
  have hbd : str_starts_with svc NETGNSS_DGPSIP = true ↔
      (svc.take 9).map lowerC = cs "dgpsip://" := by
    rw [starts_iff_lower_take, hd9, hdl]
  refine ⟨fun h => ?_, fun h hd => ?_, fun h hd => ?_, ?_⟩
  · unfold netgnss_uri_open
    rw [hn8]
    simp [hbn.mpr h]
  · have hn' : str_starts_with svc NETGNSS_NTRIP = false := by
      cases hx : str_starts_with svc NETGNSS_NTRIP with
      | false => rfl
      | true => exact absurd (hbn.mp hx) h
    unfold netgnss_uri_open
    rw [hd9]
    simp [hn', hbd.mpr hd]
  · have hn' : str_starts_with svc NETGNSS_NTRIP = false := by
      cases hx : str_starts_with svc NETGNSS_NTRIP with
      | false => rfl
      | true => exact absurd (hbn.mp hx) h
    have hd' : str_starts_with svc NETGNSS_DGPSIP = false := by
      cases hx : str_starts_with svc NETGNSS_DGPSIP with
      | false => rfl
      | true => exact absurd (hbd.mp hx) hd
    unfold netgnss_uri_open
    simp [hn', hd']
  · unfold netgnss_uri_check
    rw [Bool.or_eq_true, hbn, hbd]

/-- C9 (witness): the dispatcher theorem applied to an upper-case scheme,
whose lowercase prefix equals `ntrip://`. -/
theorem C9_witness :
    ((cs "NTRIP://h/M").take 8).map lowerC = cs "ntrip://" ∧
    netgnss_uri_open true false (cs "NTRIP://h/M") =
      .toNtrip ((cs "NTRIP://h/M").drop 8) :=
  ⟨by decide, (C9_dispatch_lowercase (cs "NTRIP://h/M") false).1 (by decide)⟩

/-- C10: `ntrip_open` copies at most 254 characters of the post-scheme URI
into its local buffer (`strlcpy` with size 255), so for every remainder of
length at least 255 the extracted credentials, host, port and mountpoint
depend only on the first 254 characters — any continuation beyond them leaves
the parse unchanged, and truncation itself raises no error. -/
theorem C10_uri_truncated (orig : List Char) (h : 255 ≤ orig.length) :
    ntrip_open_uri orig = ntrip_open_uri (orig.take 254) ∧
    ∀ ext : List Char,
      ntrip_open_uri (orig.take 254 ++ ext) = ntrip_open_uri (orig.take 254) := by
  constructor
  · simp [ntrip_open_uri, List.take_take]
  · intro ext
    have hlen : (orig.take 254).length = 254 := by
      rw [List.length_take]
      omega
    simp [ntrip_open_uri, List.take_take, List.take_left' hlen]

set_option maxRecDepth 4000 in
/-- C10 (witness): the truncation theorem applied to a 255-character URI
remainder. -/
theorem C10_witness :
    255 ≤ (List.replicate 249 'u' ++ cs ":p@h/M").length ∧
    ntrip_open_uri (List.replicate 249 'u' ++ cs ":p@h/M") =
      ntrip_open_uri ((List.replicate 249 'u' ++ cs ":p@h/M").take 254) :=
  ⟨by decide, (C10_uri_truncated _ (by decide)).1⟩

end GpsdNtrip
